import Mathlib

/-!
Verification of `api/top-langs-branch.js` (branch-aware top-languages
aggregation endpoint).

The JavaScript source is shallowly embedded: JS objects used as string-keyed
dictionaries become association lists (`List (String × Nat)`) with the exact
insert-at-end / update-in-place semantics of JS property assignment; the
external language catalog (`language-map`) becomes an explicit `Catalog`
parameter; network calls become injected functions; thrown exceptions become
`Except`.  Byte sizes are natural numbers (the upstream tree sizes are
non-negative integers); the only floating-point computation in the source
(the `percent` field) is modelled with exact rationals.
-/

set_option autoImplicit false

namespace TopLangs

/-- One entry of a recursive git tree, as consumed by
`aggregateByLanguageFromTree`.  `size = none` models a tree item whose `size`
field is absent or not a number (`typeof item.size !== "number"`). -/
structure TreeEntry where
  path : String
  type : String
  size : Option Nat
deriving DecidableEq

/-- The external `language-map` catalog: language name together with its
`extensions` list (`meta.extensions || []` — a missing list is the empty
list).  Supplied as an explicit parameter since the table is an external
dependency of the source file. -/
abbrev Catalog := List (String × List String)

/-- JS-object language totals: association list in key insertion order. -/
abbrev LanguageTotals := List (String × Nat)

/-- Embeds `e.replace(/^\./, "")`: drop a single leading dot if present. -/
def stripDotL : List Char → List Char
  | '.' :: rest => rest
  | l => l

/-- Embeds `filename.lastIndexOf(".")`: index of the last `'.'`, `none` when
absent (JS returns `-1`). -/
def lastIndexOfDot : List Char → Option Nat
  | [] => none
  | c :: cs =>
    match lastIndexOfDot cs with
    | some i => some (i + 1)
    | none => if c = '.' then some 0 else none

/-- Embeds `extToLanguage(filename)`: take the substring after the last `'.'`
of the whole filename (returning `null` when `idx <= 0`), lower-case it, and
return the first catalog language one of whose extensions (leading dot
stripped) equals it. -/
def extToLanguage (cat : Catalog) (filename : String) : Option String :=
  match lastIndexOfDot filename.toList with
  | none => none
  | some idx =>
    if idx = 0 then none
    else
      let ext := (filename.toList.drop (idx + 1)).map Char.toLower
      (cat.find? (fun p => p.2.any (fun e => stripDotL e.toList == ext))).map
        (fun p => p.1)

/-- JS property read `totals[k]` on an object built in insertion order. -/
def lookupT : LanguageTotals → String → Option Nat
  | [], _ => none
  | (k', v) :: rest, k => if k' = k then some v else lookupT rest k

/-- `totals[k] || 0`. -/
def lookup0 (t : LanguageTotals) (k : String) : Nat :=
  (lookupT t k).getD 0

/-- `k in totals` (the key exists). -/
def hasKey (t : LanguageTotals) (k : String) : Bool :=
  t.any (fun p => p.1 == k)

/-- Embeds `totals[k] = (totals[k] || 0) + v` on a JS object: update the
existing key in place, or append a fresh key at the end. -/
def updT : LanguageTotals → String → Nat → LanguageTotals
  | [], k, v => [(k, v)]
  | (k', v') :: rest, k, v =>
    if k' = k then (k', v' + v) :: rest else (k', v') :: updT rest k v

/-- Embeds the fold `for (const [k, v] of Object.entries(byLang))
{ grand[k] = (grand[k] || 0) + v }`. -/
def mergeT (grand byLang : LanguageTotals) : LanguageTotals :=
  byLang.foldl (fun g p => updT g p.1 p.2) grand

/-- One iteration of the `aggregateByLanguageFromTree` loop: skip non-blobs,
skip entries without a numeric size, skip unclassifiable paths, otherwise add
the size under the classified language. -/
def aggStep (cat : Catalog) (totals : LanguageTotals) (item : TreeEntry) :
    LanguageTotals :=
  if item.type ≠ "blob" then totals
  else
    match item.size with
    | none => totals
    | some n =>
      match extToLanguage cat item.path with
      | none => totals
      | some lang => updT totals lang n

/-- Embeds `aggregateByLanguageFromTree(tree)`. -/
def aggregateByLanguageFromTree (cat : Catalog) (tree : List TreeEntry) :
    LanguageTotals :=
  tree.foldl (aggStep cat) []

/-- Specification-side predicate: the entry is a blob, has a numeric size,
and its path classifies to language `L`. -/
def contributes (cat : Catalog) (L : String) (e : TreeEntry) : Bool :=
  e.type == "blob" && e.size.isSome && (extToLanguage cat e.path == some L)

/-- Specification-side value: the byte contribution of one entry to `L`. -/
def contribSize (cat : Catalog) (L : String) (e : TreeEntry) : Nat :=
  if contributes cat L e then e.size.getD 0 else 0

/-- The characters of a path after its last `'/'` (the whole path when it
has no `'/'`).  Formalizes the claims' notion of final path segment. -/
def finalSegChars (cs : List Char) : List Char :=
  (cs.reverse.takeWhile (fun c => c != '/')).reverse

/-- The final path segment, as a string. -/
def finalSegment (path : String) : String :=
  String.mk (finalSegChars path.toList)

/-- An upstream HTTP response: its status code and (already JSON-decoded)
body.  `Response.ok` is derived from the status as in `fetch`. -/
structure HttpResp (α : Type) where
  status : Nat
  body : α
deriving DecidableEq

/-- `Response.ok`: the status lies in the inclusive range 200–299. -/
def HttpResp.isOk {α : Type} (r : HttpResp α) : Bool :=
  200 ≤ r.status && r.status ≤ 299

/-- The upstream API as seen by `fetchRepoTreeByBranch`: the branch-lookup
response for (owner, repo, branch) — its body models `bJson?.commit?.sha`,
`none` when the payload carries no commit SHA — and the tree-fetch response
for (owner, repo, sha) — its body models `tJson?.tree`, `none` when the
payload has no `tree` array. -/
structure Network where
  branch : String → String → String → HttpResp (Option String)
  tree : String → String → String → HttpResp (Option (List TreeEntry))

/-- The two `throw new Error(...)` sites of `fetchRepoTreeByBranch`, with
the data interpolated into the message. -/
inductive UpstreamError where
  | branchLookupFailed (owner repo branch : String) (status : Nat)
  | treeFetchFailed (owner repo sha : String) (status : Nat)
deriving DecidableEq

/-- Embeds `fetchRepoTreeByBranch(token, owner, repo, branch)`: a branch
lookup answering 404 yields `[]`; any other non-ok branch status throws; a
success payload without a commit SHA yields `[]`; a tree fetch answering 409
yields `[]`; any other non-ok tree status throws; otherwise the decoded
tree (`tJson?.tree || []`). -/
def fetchRepoTreeByBranch (net : Network) (owner repo branch : String) :
    Except UpstreamError (List TreeEntry) :=
  let bRes := net.branch owner repo branch
  if !bRes.isOk then
    if bRes.status = 404 then .ok []
    else .error (.branchLookupFailed owner repo branch bRes.status)
  else
    match bRes.body with
    | none => .ok []
    | some sha =>
      let tRes := net.tree owner repo sha
      if !tRes.isOk then
        if tRes.status = 409 then .ok []
        else .error (.treeFetchFailed owner repo sha tRes.status)
      else .ok (tRes.body.getD [])

/-- Embeds `full.split("/")`: split the character list at every `'/'`
(JS semantics: `"".split("/")` is `[""]`, separators at the ends produce
empty segments). -/
def splitOnSlash : List Char → List (List Char)
  | [] => [[]]
  | c :: rest =>
    if c = '/' then [] :: splitOnSlash rest
    else
      match splitOnSlash rest with
      | [] => [[c]]
      | seg :: segs => (c :: seg) :: segs

/-- Embeds `const [owner, repo] = full.split("/")` with the
`if (!owner || !repo) continue` guard (a missing or empty — falsy —
component skips the repository). -/
def parseFullName (full : String) : Option (String × String) :=
  match splitOnSlash full.toList with
  | owner :: repo :: _ =>
    if owner = [] ∨ repo = [] then none
    else some (String.mk owner, String.mk repo)
  | _ => none

/-- The `aggregateRepos` loop as recursion over the repository list with the
running `grand` object; a thrown `UpstreamError` from the tree fetcher
propagates and aborts the whole fold. -/
def aggregateReposGo (cat : Catalog)
    (fetchTree : String → String → String → Except UpstreamError (List TreeEntry))
    (branch : String) :
    LanguageTotals → List String → Except UpstreamError LanguageTotals
  | grand, [] => .ok grand
  | grand, full :: rest =>
    match parseFullName full with
    | none => aggregateReposGo cat fetchTree branch grand rest
    | some (owner, repo) =>
      match fetchTree owner repo branch with
      | .error e => .error e
      | .ok tree =>
        if tree.isEmpty then aggregateReposGo cat fetchTree branch grand rest
        else aggregateReposGo cat fetchTree branch
          (mergeT grand (aggregateByLanguageFromTree cat tree)) rest

/-- Embeds `aggregateRepos(token, repoFullNames, branch)`; the tree fetcher
is injected (in the source it is `fetchRepoTreeByBranch` applied to the
token). -/
def aggregateRepos (cat : Catalog)
    (fetchTree : String → String → String → Except UpstreamError (List TreeEntry))
    (repos : List String) (branch : String) :
    Except UpstreamError LanguageTotals :=
  aggregateReposGo cat fetchTree branch [] repos

/-- The same loop on the success path, with every repository's tree already
resolved by `resolve`: this is what `aggregateRepos` computes when no fetch
throws (theorem `c2_aggregateAcrossRepos`, first conjunct). -/
def aggregateReposOkGo (cat : Catalog)
    (resolve : String → String → String → List TreeEntry) (branch : String) :
    LanguageTotals → List String → LanguageTotals
  | grand, [] => grand
  | grand, full :: rest =>
    match parseFullName full with
    | none => aggregateReposOkGo cat resolve branch grand rest
    | some (owner, repo) =>
      let tree := resolve owner repo branch
      if tree.isEmpty then aggregateReposOkGo cat resolve branch grand rest
      else aggregateReposOkGo cat resolve branch
        (mergeT grand (aggregateByLanguageFromTree cat tree)) rest

/-- `aggregateRepos` on the success path (see `aggregateReposOkGo`). -/
def aggregateReposOk (cat : Catalog)
    (resolve : String → String → String → List TreeEntry)
    (repos : List String) (branch : String) : LanguageTotals :=
  aggregateReposOkGo cat resolve branch [] repos

/-- The per-repository byte total of language `k` (0 for a reference that
does not parse as `owner/repo`). -/
def repoTotal (cat : Catalog)
    (resolve : String → String → String → List TreeEntry)
    (branch full k : String) : Nat :=
  match parseFullName full with
  | none => 0
  | some (owner, repo) =>
    lookup0 (aggregateByLanguageFromTree cat (resolve owner repo branch)) k

/-- Whether the repository reference contributes key `k` at all. -/
def repoHasKey (cat : Catalog)
    (resolve : String → String → String → List TreeEntry)
    (branch full k : String) : Bool :=
  match parseFullName full with
  | none => false
  | some (owner, repo) =>
    hasKey (aggregateByLanguageFromTree cat (resolve owner repo branch)) k

/-- `String.prototype.toLowerCase` restricted to ASCII (all data involved in
the claims is ASCII). -/
def strToLower (s : String) : String :=
  String.mk (s.toList.map Char.toLower)

/-- `hideList.has(k.toLowerCase())` where `hideList` is the set of
lower-cased `hide` entries: case-insensitive membership. -/
def hiddenBy (hide : List String) (k : String) : Bool :=
  (hide.map strToLower).contains (strToLower k)

/-- Stable insertion step for the descending-by-bytes sort. -/
def insertDesc (x : String × Nat) : List (String × Nat) → List (String × Nat)
  | [] => [x]
  | y :: ys => if y.2 ≤ x.2 then x :: y :: ys else y :: insertDesc x ys

/-- Embeds `Object.entries(totals).sort((a, b) => b[1] - a[1])`: the
ES2019-stable sort, descending by byte count, ties kept in object insertion
order (insertion sort from the right is that stable sort). -/
def sortByBytesDesc (l : List (String × Nat)) : List (String × Nat) :=
  l.foldr insertDesc []

/-- A ranked item as built by the handler: `{ name, size, percent }`
(`percent` is a JS float in the source; modelled with exact rationals — all
values the claims mention are exactly representable). -/
structure RankedItem where
  name : String
  size : Nat
  percent : ℚ
deriving DecidableEq

/-- Embeds the ranking block of the handler: delete hidden languages from
the totals object (case-insensitive), sort the remaining entries descending
by bytes, `slice(0, topN)`, then
`percent: totalBytes ? (size / totalBytes) * 100 : 0` where `totalBytes`
is the sum over the *selected* entries. -/
def rank (totals : LanguageTotals) (hide : List String) (topN : Nat) :
    List RankedItem :=
  let afterHide := totals.filter (fun p => !hiddenBy hide p.1)
  let sorted := sortByBytesDesc afterHide
  let top := sorted.take topN
  let totalBytes : Nat := (top.map (fun p => p.2)).sum
  top.map (fun p =>
    ⟨p.1, p.2, if totalBytes = 0 then 0 else ((p.2 : ℚ) / (totalBytes : ℚ)) * 100⟩)

/-- Modelled from the spec: `clampValue` is imported from the repository's
`src/utils/utils` (resp. `src/common/utils.js`), not among the sources under
verification; the spec says requested counts are "clamped into" a closed
range ([1, 20] for `langs_count`, [1, 300] for `max_repos`). -/
def clampValue (n lo hi : Int) : Int :=
  max lo (min n hi)

/-- Embeds `clampValue(parseInt(langs_count, 10) || 6, 1, 20)`: `parsed` is
the `parseInt` result (`none` for `NaN`); `0` is falsy, so it also falls
back to the default 6. -/
def topNOf (parsed : Option Int) : Nat :=
  (clampValue
    (match parsed with
     | none => 6
     | some n => if n = 0 then 6 else n) 1 20).toNat

/-- JS falsiness of an optional string (`undefined` or `""`). -/
def isFalsyStr : Option String → Bool
  | none => true
  | some s => s == ""

/-- Embeds the validation prefix of `handler`: the credential
(`process.env.PAT_1`) is tested first, a missing credential answers 500;
then a missing `user` answers 400; otherwise the request proceeds to the
rest of the pipeline, abstracted as the status `rest` it would answer. -/
def handlerValidateStatus (token user : Option String) (rest : Nat) : Nat :=
  if isFalsyStr token then 500
  else if isFalsyStr user then 400
  else rest

/-! ### Association-list lemmas -/

theorem lookupT_updT (t : LanguageTotals) (k : String) (v : Nat) (k' : String) :
    lookupT (updT t k v) k' =
      if k' = k then some (lookup0 t k + v) else lookupT t k' := by
  induction t with
  | nil =>
    by_cases h : k' = k
    · simp [updT, lookupT, lookup0, h]
    · have h2 : ¬ k = k' := fun hh => h hh.symm
      simp [updT, lookupT, lookup0, h, h2]
  | cons hd tl ih =>
    obtain ⟨a, b⟩ := hd
    by_cases hak : a = k
    · subst hak
      by_cases h : a = k'
      · subst h
        simp [updT, lookupT, lookup0]
      · have h2 : ¬ k' = a := fun hh => h hh.symm
        simp [updT, lookupT, lookup0, h, h2]
    · by_cases h : a = k'
      · subst h
        have h3 : ¬ k = a := fun hh => hak hh.symm
        simp [updT, lookupT, lookup0, hak, h3]
      · have h2 : ¬ k' = a := fun hh => h hh.symm
        simp [updT, lookupT, lookup0, hak, h, ih]

theorem hasKey_updT (t : LanguageTotals) (k : String) (v : Nat) (k' : String) :
    hasKey (updT t k v) k' = (hasKey t k' || (k == k')) := by
  induction t with
  | nil => simp [updT, hasKey]
  | cons hd tl ih =>
    obtain ⟨a, b⟩ := hd
    by_cases hak : a = k
    · subst hak
      by_cases h : a = k' <;> simp [updT, hasKey, h]
    · simp only [updT, if_neg hak, hasKey, List.any_cons] at ih ⊢
      rw [ih]
      cases h : (a == k') <;> simp

theorem hasKey_eq_isSome (t : LanguageTotals) (k : String) :
    hasKey t k = (lookupT t k).isSome := by
  induction t with
  | nil => simp [hasKey, lookupT]
  | cons hd tl ih =>
    obtain ⟨a, b⟩ := hd
    by_cases h : a = k
    · simp [hasKey, lookupT, h]
    · have hb : (a == k) = false := by simp [h]
      simpa [hasKey, lookupT, h, hb] using ih

theorem lookupT_ext (a b : LanguageTotals) (k : String)
    (hk : hasKey a k = hasKey b k) (h0 : lookup0 a k = lookup0 b k) :
    lookupT a k = lookupT b k := by
  rw [hasKey_eq_isSome, hasKey_eq_isSome] at hk
  cases ha : lookupT a k <;> cases hb : lookupT b k <;>
    simp [lookup0, ha, hb] at hk h0 ⊢
  exact h0

/-! ### Characterization of `aggregateByLanguageFromTree` -/

theorem contribSize_of_not_contributes {cat : Catalog} {L : String}
    {e : TreeEntry} (h : contributes cat L e = false) :
    contribSize cat L e = 0 := by
  simp [contribSize, h]

theorem sum_contribSize_eq_zero {cat : Catalog} {L : String}
    {tree : List TreeEntry} (h : tree.any (contributes cat L) = false) :
    (tree.map (contribSize cat L)).sum = 0 := by
  apply List.sum_eq_zero
  intro x hx
  obtain ⟨e, he, rfl⟩ := List.mem_map.mp hx
  have : contributes cat L e = false := by
    rw [List.any_eq_false] at h
    simpa using h e he
  simp [contribSize, this]

theorem lookupT_aggStep (cat : Catalog) (acc : LanguageTotals)
    (e : TreeEntry) (L : String) :
    lookupT (aggStep cat acc e) L =
      if contributes cat L e then some (lookup0 acc L + e.size.getD 0)
      else lookupT acc L := by
  unfold aggStep contributes
  by_cases ht : e.type = "blob"
  · cases hs : e.size with
    | none => simp [ht, hs]
    | some n =>
      cases hl : extToLanguage cat e.path with
      | none => simp [ht, hs, hl]
      | some lang =>
        by_cases hLl : lang = L
        · subst hLl
          simp [ht, hs, hl, lookupT_updT]
        · simp [ht, hs, hl, hLl, lookupT_updT, Ne.symm hLl]
  · simp [ht]

theorem lookupT_agg_foldl (cat : Catalog) (L : String) :
    ∀ (tree : List TreeEntry) (acc : LanguageTotals),
      lookupT (tree.foldl (aggStep cat) acc) L =
        if tree.any (contributes cat L) then
          some (lookup0 acc L + (tree.map (contribSize cat L)).sum)
        else lookupT acc L := by
  intro tree
  induction tree with
  | nil => simp
  | cons e rest ih =>
    intro acc
    rw [List.foldl_cons, ih, List.any_cons]
    by_cases hce : contributes cat L e
    · have hstep := lookupT_aggStep cat acc e L
      rw [if_pos hce] at hstep
      have h0 : lookup0 (aggStep cat acc e) L = lookup0 acc L + e.size.getD 0 := by
        simp [lookup0, hstep]
      by_cases hr : rest.any (contributes cat L)
      · simp [hce, hr, h0, contribSize, Nat.add_assoc]
      · have hrf : rest.any (contributes cat L) = false := by
          rw [← Bool.not_eq_true]; exact hr
        simp [hce, hrf, hstep, contribSize, sum_contribSize_eq_zero hrf]
    · have hstep := lookupT_aggStep cat acc e L
      rw [if_neg hce] at hstep
      have h0 : lookup0 (aggStep cat acc e) L = lookup0 acc L := by
        simp [lookup0, hstep]
      by_cases hr : rest.any (contributes cat L) <;>
        simp [hce, hr, h0, hstep, contribSize_of_not_contributes (by simpa using hce)]

theorem lookupT_agg (cat : Catalog) (tree : List TreeEntry) (L : String) :
    lookupT (aggregateByLanguageFromTree cat tree) L =
      if tree.any (contributes cat L) then
        some ((tree.map (contribSize cat L)).sum)
      else none := by
  rw [aggregateByLanguageFromTree, lookupT_agg_foldl]
  simp [lookup0, lookupT]

/-- Claim C1: for every catalog, list of tree entries and language `L`,
`aggregateByLanguageFromTree` maps `L` to the sum of the sizes of exactly
those entries that are blobs with a defined numeric size whose path
classifies to `L`; when no entry contributes to `L` the key `L` is absent
(non-blob, size-less and unclassifiable entries contribute nothing and
create no key). -/
theorem c1_aggregateTree_characterization (cat : Catalog)
    (tree : List TreeEntry) (L : String) :
    lookupT (aggregateByLanguageFromTree cat tree) L =
      if tree.any (contributes cat L) then
        some ((tree.map (contribSize cat L)).sum)
      else none :=
  lookupT_agg cat tree L

/-! ### Permutation invariance of the tree aggregation (C9) -/

theorem perm_any {α : Type} (p : α → Bool) {l₁ l₂ : List α}
    (h : l₁.Perm l₂) : l₁.any p = l₂.any p := by
  cases hb : l₂.any p
  · rw [List.any_eq_false] at hb ⊢
    intro x hx
    exact hb x (h.mem_iff.mp hx)
  · rw [List.any_eq_true] at hb ⊢
    obtain ⟨x, hx, hpx⟩ := hb
    exact ⟨x, h.mem_iff.mpr hx, hpx⟩

/-- Claim C9: `aggregateByLanguageFromTree` is invariant under reordering of
its input entries: permuted entry lists produce the same language-to-bytes
mapping (the same lookup result at every language). -/
theorem c9_aggregateTree_perm_invariant (cat : Catalog)
    {t₁ t₂ : List TreeEntry} (h : t₁.Perm t₂) (L : String) :
    lookupT (aggregateByLanguageFromTree cat t₁) L =
      lookupT (aggregateByLanguageFromTree cat t₂) L := by
  rw [lookupT_agg, lookupT_agg, perm_any _ h,
    (h.map (contribSize cat L)).sum_eq]

/-- Concrete instance of the permutation hypothesis of C9: swapping the two
entries of a two-file tree leaves every language total unchanged. -/
theorem c9_aggregateTree_perm_invariant_witness :
    (([⟨"a.go", "blob", some 3⟩, ⟨"b.rs", "blob", some 4⟩] : List TreeEntry).Perm
        [⟨"b.rs", "blob", some 4⟩, ⟨"a.go", "blob", some 3⟩]) ∧
    lookupT (aggregateByLanguageFromTree [("Go", [".go"]), ("Rust", [".rs"])]
        [⟨"a.go", "blob", some 3⟩, ⟨"b.rs", "blob", some 4⟩]) "Go" =
      lookupT (aggregateByLanguageFromTree [("Go", [".go"]), ("Rust", [".rs"])]
        [⟨"b.rs", "blob", some 4⟩, ⟨"a.go", "blob", some 3⟩]) "Go" :=
  ⟨List.Perm.swap _ _ _,
    c9_aggregateTree_perm_invariant _ (List.Perm.swap _ _ _) "Go"⟩

/-! ### The extension classifier on extension-less paths (C6)

The claim speaks about the final path segment, so its precondition is stated
with `finalSegChars`.  The source, however, takes the last `'.'` of the
whole path, which diverges from the claim on dotfiles inside directories. -/

theorem lastIndexOfDot_eq_none {cs : List Char}
    (h : lastIndexOfDot cs = none) : '.' ∉ cs := by
  induction cs with
  | nil => simp
  | cons c rest ih =>
    rw [lastIndexOfDot] at h
    cases hr : lastIndexOfDot rest with
    | some i => rw [hr] at h; exact absurd h (by simp)
    | none =>
      rw [hr] at h
      by_cases hc : c = '.'
      · rw [if_pos hc] at h; exact absurd h (by simp)
      · rw [if_neg hc] at h
        simp only [List.mem_cons]
        rintro (hd | hd)
        · exact hc hd.symm
        · exact ih hr hd

theorem lastIndexOfDot_split {cs : List Char} {idx : Nat}
    (h : lastIndexOfDot cs = some idx) :
    ∃ pre post, cs = pre ++ '.' :: post ∧ pre.length = idx ∧ '.' ∉ post := by
  induction cs generalizing idx with
  | nil => simp [lastIndexOfDot] at h
  | cons c rest ih =>
    rw [lastIndexOfDot] at h
    cases hr : lastIndexOfDot rest with
    | some i =>
      rw [hr] at h
      obtain ⟨pre, post, hcs, hlen, hpost⟩ := ih hr
      refine ⟨c :: pre, post, by rw [hcs]; rfl, ?_, hpost⟩
      have : i + 1 = idx := by simpa using h
      simp [hlen, this]
    | none =>
      rw [hr] at h
      by_cases hc : c = '.'
      · rw [if_pos hc] at h
        have hidx : idx = 0 := by simpa using h.symm
        exact ⟨[], rest, by simp [hc], by simp [hidx], lastIndexOfDot_eq_none hr⟩
      · rw [if_neg hc] at h
        exact absurd h (by simp)

theorem takeWhile_append_of_all {α : Type} (p : α → Bool) {l₁ : List α}
    (l₂ : List α) (h : ∀ x ∈ l₁, p x = true) :
    (l₁ ++ l₂).takeWhile p = l₁ ++ l₂.takeWhile p := by
  induction l₁ with
  | nil => simp
  | cons a l ih =>
    have ha : p a = true := h a (by simp)
    simp only [List.cons_append, List.takeWhile_cons, ha, if_true]
    rw [ih fun x hx => h x (by simp [hx])]

/-- If the final segment of the path contains no dot but the whole path does
contain one (at a positive index), then everything after the path's last dot
contains a `'/'`. -/
theorem slash_mem_post {cs pre post : List Char}
    (hcs : cs = pre ++ '.' :: post)
    (hseg : ∀ c ∈ finalSegChars cs, c ≠ '.') : '/' ∈ post := by
  by_contra hns
  have hall : ∀ x ∈ post.reverse, (fun c => c != '/') x = true := by
    intro x hx
    simp only [bne_iff_ne, ne_eq]
    intro hx'
    exact hns (by simpa [hx'] using List.mem_reverse.mp hx)
  have hrev : cs.reverse = post.reverse ++ '.' :: pre.reverse := by
    simp [hcs]
  have htw : cs.reverse.takeWhile (fun c => c != '/') =
      post.reverse ++ ('.' :: pre.reverse).takeWhile (fun c => c != '/') := by
    rw [hrev, takeWhile_append_of_all _ _ hall]
  have hdot : '.' ∈ cs.reverse.takeWhile (fun c => c != '/') := by
    rw [htw, List.takeWhile_cons]
    simp
  have : '.' ∈ finalSegChars cs := by
    unfold finalSegChars
    exact List.mem_reverse.mpr hdot
  exact hseg '.' this rfl

/-- Claim C6 fails on the source: `extToLanguage` takes the last `'.'` of the
*whole* path, so a dotfile inside a directory is treated as having an
extension.  Concretely, `"dir/.gitignore"` has final segment `".gitignore"`
(a dotfile whose only dot is its first character), yet against a catalog
mapping the `gitignore` extension (as `language-map` does for Ignore List)
the classifier returns that language rather than none. -/
theorem c6_counterexample :
    finalSegment "dir/.gitignore" = ".gitignore" ∧
    (∀ c ∈ (String.toList ".gitignore").drop 1, c ≠ '.') ∧
    extToLanguage [("Ignore List", [".gitignore"])] "dir/.gitignore" =
      some "Ignore List" := by
  refine ⟨by decide, by decide, by decide⟩

/-- Claim C6, amended: (1) provided no catalog extension (after stripping its
leading dot) contains a `'/'`, every path whose final segment contains no
`'.'` classifies to none; (2) every path with no `'.'` after its first
character — in particular a top-level dotfile with no extension — classifies
to none.  (A dotfile inside a subdirectory is instead treated as having an
extension, per the counterexample.) -/
theorem c6_amended_no_extension_none :
    (∀ (cat : Catalog) (path : String),
      (∀ p ∈ cat, ∀ e ∈ p.2, '/' ∉ stripDotL e.toList) →
      (∀ c ∈ finalSegChars path.toList, c ≠ '.') →
      extToLanguage cat path = none) ∧
    (∀ (cat : Catalog) (path : String),
      (∀ c ∈ path.toList.drop 1, c ≠ '.') →
      extToLanguage cat path = none) := by
  constructor
  · intro cat path hcat hseg
    unfold extToLanguage
    cases hidx : lastIndexOfDot path.toList with
    | none => rfl
    | some idx =>
      by_cases h0 : idx = 0
      · simp [h0]
      · simp only [h0, if_false]
        obtain ⟨pre, post, hcs, hlen, _hpost⟩ := lastIndexOfDot_split hidx
        have hslash : '/' ∈ post := slash_mem_post hcs hseg
        have hdrop : path.toList.drop (idx + 1) = post := by
          rw [hcs, ← hlen]
          have h1 : pre.length + 1 = (pre ++ ['.']).length := by simp
          have h2 : pre ++ '.' :: post = (pre ++ ['.']) ++ post := by simp
          rw [h1, h2, List.drop_left]
        have hext : '/' ∈ (path.toList.drop (idx + 1)).map Char.toLower := by
          rw [hdrop]
          exact List.mem_map.mpr ⟨'/', hslash, by decide⟩
        simp only [Option.map_eq_none']
        rw [List.find?_eq_none]
        intro p hp
        simp only [Bool.not_eq_true, List.any_eq_false]
        intro e he
        rw [beq_eq_false_iff_ne]
        intro heq
        exact hcat p hp e he (heq ▸ hext)
  · intro cat path hdot
    unfold extToLanguage
    cases hidx : lastIndexOfDot path.toList with
    | none => rfl
    | some idx =>
      by_cases h0 : idx = 0
      · simp [h0]
      · exfalso
        obtain ⟨pre, post, hcs, hlen, hpost⟩ := lastIndexOfDot_split hidx
        have hpre : 1 ≤ pre.length := by omega
        have : '.' ∈ path.toList.drop 1 := by
          rw [hcs, List.drop_append_of_le_length hpre]
          simp
        exact hdot '.' this rfl

/-- Instance of the amended C6 at concrete inputs: a path whose final segment
has no dot, and a top-level dotfile, both classify to none against a
slash-free catalog. -/
theorem c6_amended_no_extension_none_witness :
    (∀ p ∈ ([("Go", [".go"])] : Catalog), ∀ e ∈ p.2, '/' ∉ stripDotL e.toList) ∧
    (∀ c ∈ finalSegChars (String.toList "dir.d/file"), c ≠ '.') ∧
    extToLanguage [("Go", [".go"])] "dir.d/file" = none ∧
    extToLanguage [("Go", [".go"])] ".gitignore" = none :=
  ⟨by decide, by decide,
    c6_amended_no_extension_none.1 _ "dir.d/file" (by decide) (by decide),
    c6_amended_no_extension_none.2 _ ".gitignore" (by decide)⟩

/-! ### Merging per-repository totals (C2) -/

theorem lookup0_updT (t : LanguageTotals) (k : String) (v : Nat) (k' : String) :
    lookup0 (updT t k v) k' =
      if k' = k then lookup0 t k + v else lookup0 t k' := by
  rw [lookup0, lookupT_updT]
  by_cases h : k' = k <;> simp [h, lookup0]

theorem lookup0_mergeT (b : LanguageTotals) :
    ∀ (a : LanguageTotals) (k : String),
      lookup0 (mergeT a b) k =
        lookup0 a k + (b.map (fun p => if p.1 = k then p.2 else 0)).sum := by
  induction b with
  | nil => simp [mergeT]
  | cons hd rest ih =>
    intro a k
    obtain ⟨k₁, v₁⟩ := hd
    have hstep : mergeT a ((k₁, v₁) :: rest) = mergeT (updT a k₁ v₁) rest := rfl
    rw [hstep, ih, lookup0_updT]
    by_cases h : k = k₁
    · subst h
      simp [Nat.add_assoc]
    · have h2 : ¬ k₁ = k := fun hh => h hh.symm
      simp [h, h2]

theorem hasKey_mergeT (b : LanguageTotals) :
    ∀ (a : LanguageTotals) (k : String),
      hasKey (mergeT a b) k = (hasKey a k || b.any (fun p => p.1 == k)) := by
  induction b with
  | nil => simp [mergeT]
  | cons hd rest ih =>
    intro a k
    obtain ⟨k₁, v₁⟩ := hd
    have hstep : mergeT a ((k₁, v₁) :: rest) = mergeT (updT a k₁ v₁) rest := rfl
    rw [hstep, ih, hasKey_updT]
    simp [Bool.or_assoc]

theorem hasKey_iff_mem_keys (t : LanguageTotals) (k : String) :
    hasKey t k = true ↔ k ∈ t.map (fun p => p.1) := by
  simp only [hasKey, List.any_eq_true, List.mem_map, beq_iff_eq]

theorem keys_updT (t : LanguageTotals) (k : String) (v : Nat) :
    (updT t k v).map (fun p => p.1) =
      if hasKey t k then t.map (fun p => p.1)
      else t.map (fun p => p.1) ++ [k] := by
  induction t with
  | nil => simp [updT, hasKey]
  | cons hd rest ih =>
    obtain ⟨a, b⟩ := hd
    by_cases h : a = k
    · subst h
      simp [updT, hasKey]
    · have hb : (a == k) = false := by simp [h]
      simp only [updT, if_neg h, List.map_cons, ih, hasKey, List.any_cons, hb,
        Bool.false_or]
      by_cases hk : hasKey rest k <;> simp [hasKey] at hk <;> simp [hk]

theorem nodupKeys_updT {t : LanguageTotals} (k : String) (v : Nat)
    (h : (t.map (fun p => p.1)).Nodup) :
    ((updT t k v).map (fun p => p.1)).Nodup := by
  rw [keys_updT]
  by_cases hk : hasKey t k
  · simpa [hk]
  · have hnm : k ∉ t.map (fun p => p.1) := by
      intro hmem
      exact hk ((hasKey_iff_mem_keys t k).mpr hmem)
    simp [hk, List.nodup_append, h, hnm]

theorem nodupKeys_agg (cat : Catalog) (tree : List TreeEntry) :
    ((aggregateByLanguageFromTree cat tree).map (fun p => p.1)).Nodup := by
  rw [aggregateByLanguageFromTree]
  suffices h : ∀ (acc : LanguageTotals), (acc.map (fun p => p.1)).Nodup →
      ((tree.foldl (aggStep cat) acc).map (fun p => p.1)).Nodup by
    exact h [] (by simp)
  induction tree with
  | nil => intro acc hacc; simpa using hacc
  | cons e rest ih =>
    intro acc hacc
    rw [List.foldl_cons]
    apply ih
    unfold aggStep
    by_cases ht : e.type = "blob"
    · cases hs : e.size with
      | none => simpa [ht]
      | some n =>
        cases hl : extToLanguage cat e.path with
        | none => simpa [ht]
        | some lang => simpa [ht] using nodupKeys_updT lang n hacc
    · simpa [ht]

theorem sum_ite_eq_zero_of_not_hasKey {t : LanguageTotals} {k : String}
    (h : hasKey t k = false) :
    (t.map (fun p => if p.1 = k then p.2 else 0)).sum = 0 := by
  apply List.sum_eq_zero
  intro x hx
  obtain ⟨p, hp, rfl⟩ := List.mem_map.mp hx
  have : ¬ p.1 = k := by
    intro hh
    rw [← Bool.not_eq_true] at h
    exact h ((hasKey_iff_mem_keys t k).mpr (List.mem_map.mpr ⟨p, hp, hh⟩))
  simp [this]

theorem sum_ite_eq_lookup0 {t : LanguageTotals} (k : String)
    (h : (t.map (fun p => p.1)).Nodup) :
    (t.map (fun p => if p.1 = k then p.2 else 0)).sum = lookup0 t k := by
  induction t with
  | nil => simp [lookup0, lookupT]
  | cons hd rest ih =>
    obtain ⟨a, b⟩ := hd
    simp only [List.map_cons, List.nodup_cons] at h
    by_cases hak : a = k
    · subst hak
      have hnk : hasKey rest a = false := by
        rw [← Bool.not_eq_true]
        intro hh
        exact h.1 ((hasKey_iff_mem_keys rest a).mp hh)
      simp [lookup0, lookupT, sum_ite_eq_zero_of_not_hasKey hnk]
    · have h2 : ¬ a = k := hak
      simp [lookup0, lookupT, h2, ih h.2, lookup0]

theorem lookup0_agg (cat : Catalog) (tree : List TreeEntry) (k : String) :
    lookup0 (aggregateByLanguageFromTree cat tree) k =
      (tree.map (contribSize cat k)).sum := by
  rw [lookup0, lookupT_agg]
  by_cases h : tree.any (contributes cat k)
  · simp [h]
  · have hf : tree.any (contributes cat k) = false := by
      rw [← Bool.not_eq_true]; exact h
    simp [hf, sum_contribSize_eq_zero hf]

theorem hasKey_agg (cat : Catalog) (tree : List TreeEntry) (k : String) :
    hasKey (aggregateByLanguageFromTree cat tree) k =
      tree.any (contributes cat k) := by
  rw [hasKey_eq_isSome, lookupT_agg]
  by_cases h : tree.any (contributes cat k) <;> simp [h]

theorem lookup0_mergeT_agg (cat : Catalog) (grand : LanguageTotals)
    (tree : List TreeEntry) (k : String) :
    lookup0 (mergeT grand (aggregateByLanguageFromTree cat tree)) k =
      lookup0 grand k + lookup0 (aggregateByLanguageFromTree cat tree) k := by
  rw [lookup0_mergeT, sum_ite_eq_lookup0 k (nodupKeys_agg cat tree)]

theorem lookup0_aggregateReposOkGo (cat : Catalog)
    (resolve : String → String → String → List TreeEntry) (branch : String)
    (k : String) :
    ∀ (repos : List String) (grand : LanguageTotals),
      lookup0 (aggregateReposOkGo cat resolve branch grand repos) k =
        lookup0 grand k +
          (repos.map (fun full => repoTotal cat resolve branch full k)).sum := by
  intro repos
  induction repos with
  | nil => simp [aggregateReposOkGo]
  | cons full rest ih =>
    intro grand
    rw [aggregateReposOkGo]
    split
    · next hp =>
        rw [ih]
        simp [repoTotal, hp]
    · next owner repo hp =>
        by_cases he : (resolve owner repo branch).isEmpty
        · have htree : resolve owner repo branch = [] := by
            simpa [List.isEmpty_iff] using he
          have h1 : repoTotal cat resolve branch full k = 0 := by
            simp [repoTotal, hp, htree, aggregateByLanguageFromTree,
              lookup0, lookupT]
          rw [if_pos he, ih]
          simp [h1]
        · have h1 : repoTotal cat resolve branch full k =
              lookup0 (aggregateByLanguageFromTree cat
                (resolve owner repo branch)) k := by
            simp [repoTotal, hp]
          rw [if_neg he, ih, lookup0_mergeT_agg]
          simp [h1, Nat.add_assoc]

theorem hasKey_aggregateReposOkGo (cat : Catalog)
    (resolve : String → String → String → List TreeEntry) (branch : String)
    (k : String) :
    ∀ (repos : List String) (grand : LanguageTotals),
      hasKey (aggregateReposOkGo cat resolve branch grand repos) k =
        (hasKey grand k ||
          repos.any (fun full => repoHasKey cat resolve branch full k)) := by
  intro repos
  induction repos with
  | nil => simp [aggregateReposOkGo]
  | cons full rest ih =>
    intro grand
    rw [aggregateReposOkGo]
    split
    · next hp =>
        rw [ih]
        simp [repoHasKey, hp]
    · next owner repo hp =>
        by_cases he : (resolve owner repo branch).isEmpty
        · have htree : resolve owner repo branch = [] := by
            simpa [List.isEmpty_iff] using he
          have h1 : repoHasKey cat resolve branch full k = false := by
            simp [repoHasKey, hp, htree, aggregateByLanguageFromTree, hasKey]
          rw [if_pos he, ih]
          simp [h1]
        · have h1 : repoHasKey cat resolve branch full k =
              hasKey (aggregateByLanguageFromTree cat
                (resolve owner repo branch)) k := by
            simp [repoHasKey, hp]
          rw [if_neg he, ih, hasKey_mergeT]
          have h2 : (aggregateByLanguageFromTree cat
              (resolve owner repo branch)).any (fun p => p.1 == k) =
              hasKey (aggregateByLanguageFromTree cat
                (resolve owner repo branch)) k := rfl
          rw [h2]
          simp [h1, Bool.or_assoc]

theorem aggregateReposGo_ok (cat : Catalog)
    (fetchTree : String → String → String → Except UpstreamError (List TreeEntry))
    (resolve : String → String → String → List TreeEntry) (branch : String)
    (hok : ∀ owner repo, fetchTree owner repo branch =
      Except.ok (resolve owner repo branch)) :
    ∀ (repos : List String) (grand : LanguageTotals),
      aggregateReposGo cat fetchTree branch grand repos =
        Except.ok (aggregateReposOkGo cat resolve branch grand repos) := by
  intro repos
  induction repos with
  | nil => intro grand; rfl
  | cons full rest ih =>
    intro grand
    cases hp : parseFullName full with
    | none =>
      rw [aggregateReposGo, aggregateReposOkGo]
      simp only [hp]
      exact ih grand
    | some pr =>
      obtain ⟨owner, repo⟩ := pr
      rw [aggregateReposGo, aggregateReposOkGo]
      simp only [hp, hok owner repo]
      by_cases he : (resolve owner repo branch).isEmpty <;> simp [he, ih]

/-- Claim C2: with every repository's tree fetch succeeding,
`aggregateRepos` returns the success-path fold `aggregateReposOk`; the
latter assigns every language `k` the sum of the per-repository totals of
`k` (pointwise sum), and is invariant under permutations of the repository
list; in particular over repositories resolving to `{Go: 100}` and
`{Go: 50, Rust: 30}` it yields `{Go: 150, Rust: 30}` in either processing
order. -/
theorem c2_aggregateAcrossRepos :
    (∀ (cat : Catalog) fetchTree resolve (branch : String),
      (∀ owner repo, fetchTree owner repo branch =
        Except.ok (resolve owner repo branch)) →
      ∀ repos, aggregateRepos cat fetchTree repos branch =
        Except.ok (aggregateReposOk cat resolve repos branch)) ∧
    (∀ (cat : Catalog) resolve (repos : List String) (branch k : String),
      lookup0 (aggregateReposOk cat resolve repos branch) k =
        (repos.map (fun full => repoTotal cat resolve branch full k)).sum) ∧
    (∀ (cat : Catalog) resolve (repos₁ repos₂ : List String)
      (branch : String), repos₁.Perm repos₂ → ∀ k,
      lookupT (aggregateReposOk cat resolve repos₁ branch) k =
        lookupT (aggregateReposOk cat resolve repos₂ branch) k) ∧
    (aggregateReposOk [("Go", [".go"]), ("Rust", [".rs"])]
        (fun _ repo _ =>
          if repo = "A" then [⟨"main.go", "blob", some 100⟩]
          else if repo = "B" then
            [⟨"a.go", "blob", some 50⟩, ⟨"b.rs", "blob", some 30⟩]
          else [])
        ["u/A", "u/B"] "develop" = [("Go", 150), ("Rust", 30)] ∧
      aggregateReposOk [("Go", [".go"]), ("Rust", [".rs"])]
        (fun _ repo _ =>
          if repo = "A" then [⟨"main.go", "blob", some 100⟩]
          else if repo = "B" then
            [⟨"a.go", "blob", some 50⟩, ⟨"b.rs", "blob", some 30⟩]
          else [])
        ["u/B", "u/A"] "develop" = [("Go", 150), ("Rust", 30)]) := by
  refine ⟨?_, ?_, ?_, by decide, by decide⟩
  · intro cat fetchTree resolve branch hok repos
    exact aggregateReposGo_ok cat fetchTree resolve branch hok repos []
  · intro cat resolve repos branch k
    rw [aggregateReposOk, lookup0_aggregateReposOkGo]
    simp [lookup0, lookupT]
  · intro cat resolve repos₁ repos₂ branch hperm k
    apply lookupT_ext
    · rw [aggregateReposOk, aggregateReposOk, hasKey_aggregateReposOkGo,
        hasKey_aggregateReposOkGo,
        perm_any (fun full => repoHasKey cat resolve branch full k) hperm]
    · rw [aggregateReposOk, aggregateReposOk, lookup0_aggregateReposOkGo,
        lookup0_aggregateReposOkGo,
        (hperm.map (fun full => repoTotal cat resolve branch full k)).sum_eq]

/-- Instance of C2's hypotheses at concrete inputs: a fetcher that agrees
with a resolver on the two example repositories, and the swap permutation of
the repository list. -/
theorem c2_aggregateAcrossRepos_witness :
    ((fun (_ _ _ : String) =>
        (Except.ok [] : Except UpstreamError (List TreeEntry))) "o" "r" "b" =
      Except.ok ((fun (_ _ _ : String) => ([] : List TreeEntry)) "o" "r" "b")) ∧
    aggregateRepos [] (fun _ _ _ => Except.ok []) ["u/A"] "b" =
      Except.ok (aggregateReposOk [] (fun _ _ _ => []) ["u/A"] "b") ∧
    (["u/A", "u/B"] : List String).Perm ["u/B", "u/A"] ∧
    lookupT (aggregateReposOk [] (fun _ _ _ => []) ["u/A", "u/B"] "b") "Go" =
      lookupT (aggregateReposOk [] (fun _ _ _ => []) ["u/B", "u/A"] "b") "Go" :=
  ⟨rfl,
    c2_aggregateAcrossRepos.1 [] _ (fun _ _ _ => []) "b" (fun _ _ => rfl) ["u/A"],
    List.Perm.swap _ _ _,
    c2_aggregateAcrossRepos.2.2.1 [] (fun _ _ _ => []) ["u/A", "u/B"]
      ["u/B", "u/A"] "b" (List.Perm.swap _ _ _) "Go"⟩

/-! ### Upstream error policy of the tree resolver (C4, C10) -/

theorem aggregateReposGo_error (cat : Catalog)
    (fetchTree : String → String → String → Except UpstreamError (List TreeEntry))
    (branch : String) :
    ∀ (repos : List String) (grand : LanguageTotals)
      (full owner repo : String) (e : UpstreamError),
      full ∈ repos → parseFullName full = some (owner, repo) →
      fetchTree owner repo branch = Except.error e →
      ∃ e', aggregateReposGo cat fetchTree branch grand repos =
        Except.error e' := by
  intro repos
  induction repos with
  | nil =>
    intro grand full owner repo e hmem
    simp at hmem
  | cons hd rest ih =>
    intro grand full owner repo e hmem hp hf
    rcases List.mem_cons.mp hmem with rfl | hmem'
    · rw [aggregateReposGo]
      simp only [hp, hf]
      exact ⟨e, rfl⟩
    · rw [aggregateReposGo]
      cases hph : parseFullName hd with
      | none =>
        simp only [hph]
        exact ih grand full owner repo e hmem' hp hf
      | some pr2 =>
        obtain ⟨o2, r2⟩ := pr2
        simp only [hph]
        cases hf2 : fetchTree o2 r2 branch with
        | error e2 => exact ⟨e2, by simp⟩
        | ok tree =>
          simp only []
          by_cases he : tree.isEmpty
          · rw [if_pos he]
            exact ih grand full owner repo e hmem' hp hf
          · rw [if_neg he]
            exact ih _ full owner repo e hmem' hp hf

/-- Claim C4: the tree resolver answers the empty tree (not an error) when
the branch lookup is not-found (404) or the tree fetch is a conflict (409,
empty repository); every other non-success status of either call raises the
corresponding hard `UpstreamError`; and such an error propagates out of the
whole repository aggregation — a failing repository in the list forces
`aggregateRepos` itself to answer an error, never a partial total. -/
theorem c4_resolveTree_error_policy :
    (∀ (net : Network) (owner repo branch : String),
      ((net.branch owner repo branch).status = 404 →
        fetchRepoTreeByBranch net owner repo branch = Except.ok []) ∧
      ((net.branch owner repo branch).isOk = false →
        (net.branch owner repo branch).status ≠ 404 →
        fetchRepoTreeByBranch net owner repo branch =
          Except.error (.branchLookupFailed owner repo branch
            (net.branch owner repo branch).status)) ∧
      (∀ sha, (net.branch owner repo branch).isOk = true →
        (net.branch owner repo branch).body = some sha →
        (net.tree owner repo sha).status = 409 →
        fetchRepoTreeByBranch net owner repo branch = Except.ok []) ∧
      (∀ sha, (net.branch owner repo branch).isOk = true →
        (net.branch owner repo branch).body = some sha →
        (net.tree owner repo sha).isOk = false →
        (net.tree owner repo sha).status ≠ 409 →
        fetchRepoTreeByBranch net owner repo branch =
          Except.error (.treeFetchFailed owner repo sha
            (net.tree owner repo sha).status))) ∧
    (∀ (cat : Catalog) fetchTree (branch : String) (repos : List String)
      (full owner repo : String) (e : UpstreamError),
      full ∈ repos → parseFullName full = some (owner, repo) →
      fetchTree owner repo branch = Except.error e →
      ∃ e', aggregateRepos cat fetchTree repos branch = Except.error e') := by
  constructor
  · intro net owner repo branch
    refine ⟨?_, ?_, ?_, ?_⟩
    · intro h404
      have hno : (net.branch owner repo branch).isOk = false := by
        simp [HttpResp.isOk, h404]
      simp [fetchRepoTreeByBranch, hno, h404]
    · intro hno hne
      simp [fetchRepoTreeByBranch, hno, hne]
    · intro sha hok hsha h409
      have hno : (net.tree owner repo sha).isOk = false := by
        simp [HttpResp.isOk, h409]
      simp [fetchRepoTreeByBranch, hok, hsha, hno, h409]
    · intro sha hok hsha hno hne
      simp [fetchRepoTreeByBranch, hok, hsha, hno, hne]
  · intro cat fetchTree branch repos full owner repo e hmem hp hf
    exact aggregateReposGo_error cat fetchTree branch repos [] full owner
      repo e hmem hp hf

/-- Instances of C4's hypotheses at concrete networks: a 404 branch lookup
and a 409 tree fetch yield the empty tree; a 500 on either call yields the
matching error; an erroring fetch makes the whole aggregation error. -/
theorem c4_resolveTree_error_policy_witness :
    fetchRepoTreeByBranch
        ⟨fun _ _ _ => ⟨404, none⟩, fun _ _ _ => ⟨200, none⟩⟩ "o" "r" "b" =
      Except.ok [] ∧
    fetchRepoTreeByBranch
        ⟨fun _ _ _ => ⟨500, none⟩, fun _ _ _ => ⟨200, none⟩⟩ "o" "r" "b" =
      Except.error (.branchLookupFailed "o" "r" "b" 500) ∧
    fetchRepoTreeByBranch
        ⟨fun _ _ _ => ⟨200, some "abc"⟩, fun _ _ _ => ⟨409, none⟩⟩ "o" "r" "b" =
      Except.ok [] ∧
    fetchRepoTreeByBranch
        ⟨fun _ _ _ => ⟨200, some "abc"⟩, fun _ _ _ => ⟨500, none⟩⟩ "o" "r" "b" =
      Except.error (.treeFetchFailed "o" "r" "abc" 500) ∧
    ∃ e', aggregateRepos []
        (fun _ _ _ => Except.error (.branchLookupFailed "o" "r" "b" 500))
        ["u/A"] "b" = Except.error e' :=
  ⟨(c4_resolveTree_error_policy.1 _ "o" "r" "b").1 (by decide),
    (c4_resolveTree_error_policy.1 _ "o" "r" "b").2.1 (by decide) (by decide),
    (c4_resolveTree_error_policy.1 _ "o" "r" "b").2.2.1 "abc" (by decide)
      (by decide) (by decide),
    (c4_resolveTree_error_policy.1 _ "o" "r" "b").2.2.2 "abc" (by decide)
      (by decide) (by decide) (by decide),
    c4_resolveTree_error_policy.2 [] _ "b" ["u/A"] "u/A" "u" "A"
      (.branchLookupFailed "o" "r" "b" 500) (by decide) (by decide) rfl⟩

/-- Claim C10: when the branch lookup succeeds but its payload has no commit
SHA, the resolver answers the empty tree — no error — and never consults the
tree endpoint (replacing the tree endpoint changes nothing). -/
theorem c10_missing_sha_yields_empty (net : Network)
    (owner repo branch : String)
    (hok : (net.branch owner repo branch).isOk = true)
    (hsha : (net.branch owner repo branch).body = none) :
    fetchRepoTreeByBranch net owner repo branch = Except.ok [] ∧
    ∀ tree', fetchRepoTreeByBranch ⟨net.branch, tree'⟩ owner repo branch =
      Except.ok [] := by
  constructor
  · simp [fetchRepoTreeByBranch, hok, hsha]
  · intro tree'
    simp [fetchRepoTreeByBranch, hok, hsha]

/-- Instance of C10 at a concrete network whose tree endpoint would fail if
it were consulted. -/
theorem c10_missing_sha_yields_empty_witness :
    ((Network.mk (fun _ _ _ => ⟨200, none⟩)
        (fun _ _ _ => ⟨500, none⟩)).branch "o" "r" "b").isOk = true ∧
    fetchRepoTreeByBranch
        ⟨fun _ _ _ => ⟨200, none⟩, fun _ _ _ => ⟨500, none⟩⟩ "o" "r" "b" =
      Except.ok [] :=
  ⟨by decide,
    (c10_missing_sha_yields_empty _ "o" "r" "b" (by decide) (by decide)).1⟩

/-! ### Orchestrator validation order (C5) -/

/-- Claim C5 fails on the source: the handler tests the credential
(`process.env.PAT_1`) before the `user` parameter, so a request with `user`
absent and the credential not configured answers 500, not the claimed 400. -/
theorem c5_counterexample :
    handlerValidateStatus none none 200 = 500 ∧
    handlerValidateStatus none none 200 ≠ 400 := by
  constructor <;> decide

/-- Claim C5, amended: the credential is validated before `user` — a missing
(or empty) credential answers 500 regardless of `user`; with the credential
configured, a missing (or empty) `user` answers 400. -/
theorem c5_amended_credential_before_user (token user : Option String)
    (rest : Nat) :
    (isFalsyStr token = true → handlerValidateStatus token user rest = 500) ∧
    (isFalsyStr token = false → isFalsyStr user = true →
      handlerValidateStatus token user rest = 400) := by
  constructor
  · intro h
    simp [handlerValidateStatus, h]
  · intro ht hu
    simp [handlerValidateStatus, ht, hu]

/-- Instances of the amended C5 at concrete requests. -/
theorem c5_amended_credential_before_user_witness :
    isFalsyStr (none : Option String) = true ∧
    handlerValidateStatus none (some "octocat") 200 = 500 ∧
    isFalsyStr (some "ghp_token") = false ∧
    handlerValidateStatus (some "ghp_token") none 200 = 400 :=
  ⟨by decide,
    (c5_amended_credential_before_user none (some "octocat") 200).1 (by decide),
    by decide,
    (c5_amended_credential_before_user (some "ghp_token") none 200).2
      (by decide) (by decide)⟩

/-! ### Ranking (C3, C7, C8) -/

theorem mem_insertDesc {x a : String × Nat} {l : List (String × Nat)} :
    x ∈ insertDesc a l ↔ x = a ∨ x ∈ l := by
  induction l with
  | nil => simp [insertDesc]
  | cons y ys ih =>
    rw [insertDesc]
    by_cases h : y.2 ≤ a.2
    · simp [h]
    · simp only [h, if_false, List.mem_cons, ih]
      tauto

theorem mem_sortByBytesDesc {x : String × Nat} {l : List (String × Nat)} :
    x ∈ sortByBytesDesc l ↔ x ∈ l := by
  induction l with
  | nil => simp [sortByBytesDesc]
  | cons a l ih =>
    have hstep : sortByBytesDesc (a :: l) = insertDesc a (sortByBytesDesc l) :=
      rfl
    rw [hstep, mem_insertDesc, ih]
    simp [eq_comm]

theorem rank_mem_origin {totals : LanguageTotals} {hide : List String}
    {topN : Nat} {item : RankedItem} (h : item ∈ rank totals hide topN) :
    ∃ p, p ∈ totals ∧ item.name = p.1 ∧ item.size = p.2 ∧
      hiddenBy hide p.1 = false := by
  simp only [rank] at h
  obtain ⟨p, hp, rfl⟩ := List.mem_map.mp h
  have hp1 := List.mem_of_mem_take hp
  have hp2 := mem_sortByBytesDesc.mp hp1
  obtain ⟨hmem, hbool⟩ := List.mem_filter.mp hp2
  refine ⟨p, hmem, rfl, rfl, ?_⟩
  simpa using hbool

/-- Claim C3: hidden languages (case-insensitive) never appear in the ranked
output; every ranked item's percent equals `(size / S) * 100` (0 when `S` is
0) where `S` is the byte sum over the selected post-hide top-N subset
itself — not the grand total; and concretely, hiding `Go` with `topN = 1` on
`{Go: 150, Rust: 30, Python: 10}` yields exactly
`[{name := Rust, sizeBytes := 30, percent := 100}]`. -/
theorem c3_rank_hidden_and_percent_base :
    (∀ (totals : LanguageTotals) (hide : List String) (topN : Nat)
      (item : RankedItem), item ∈ rank totals hide topN →
      hiddenBy hide item.name = false) ∧
    (∀ (totals : LanguageTotals) (hide : List String) (topN : Nat)
      (item : RankedItem), item ∈ rank totals hide topN →
      item.percent =
        if ((rank totals hide topN).map (fun i => i.size)).sum = 0 then 0
        else ((item.size : ℚ) /
          ((((rank totals hide topN).map (fun i => i.size)).sum : Nat) : ℚ))
            * 100) ∧
    rank [("Go", 150), ("Rust", 30), ("Python", 10)] ["Go"] 1 =
      [⟨"Rust", 30, 100⟩] := by
  refine ⟨?_, ?_, ?_⟩
  · intro totals hide topN item h
    obtain ⟨p, _, hname, _, hhid⟩ := rank_mem_origin h
    rw [hname, hhid]
  · intro totals hide topN item h
    have hsz : (rank totals hide topN).map (fun i => i.size) =
        ((sortByBytesDesc
          (totals.filter (fun p => !hiddenBy hide p.1))).take topN).map
            (fun p => p.2) := by
      simp only [rank, List.map_map]
      apply List.map_congr_left
      intro a _
      rfl
    simp only [rank] at h
    obtain ⟨p, hp, rfl⟩ := List.mem_map.mp h
    rw [hsz]
  · have hfil : ([("Go", 150), ("Rust", 30), ("Python", 10)] :
        LanguageTotals).filter (fun p => !hiddenBy ["Go"] p.1) =
        [("Rust", 30), ("Python", 10)] := by decide
    have hsort : sortByBytesDesc [("Rust", 30), ("Python", 10)] =
        [("Rust", 30), ("Python", 10)] := by decide
    simp only [rank, hfil, hsort]
    norm_num

/-- Instance of C3's membership hypotheses at the concrete example: the lone
ranked item is not hidden and its percent is computed over the selected
subset. -/
theorem c3_rank_hidden_and_percent_base_witness :
    ((⟨"Rust", 30, 100⟩ : RankedItem) ∈
      rank [("Go", 150), ("Rust", 30), ("Python", 10)] ["Go"] 1) ∧
    hiddenBy ["Go"] "Rust" = false :=
  ⟨c3_rank_hidden_and_percent_base.2.2 ▸ List.mem_singleton.mpr rfl,
    c3_rank_hidden_and_percent_base.1 _ _ _ _
      (c3_rank_hidden_and_percent_base.2.2 ▸ List.mem_singleton.mpr rfl)⟩

/-! ### Positivity of ranked sizes (C7) -/

theorem updT_pos {t : LanguageTotals} {k : String} {v : Nat}
    (ht : ∀ q ∈ t, 0 < q.2) (hv : 0 < v) :
    ∀ q ∈ updT t k v, 0 < q.2 := by
  induction t with
  | nil =>
    intro q hq
    simp only [updT, List.mem_singleton] at hq
    rw [hq]
    exact hv
  | cons hd rest ih =>
    obtain ⟨a, b⟩ := hd
    intro q hq
    rw [updT] at hq
    by_cases h : a = k
    · rw [if_pos h] at hq
      rcases List.mem_cons.mp hq with hq' | hq'
      · rw [hq']
        have hb := ht (a, b) (by simp)
        simp only at hb ⊢
        omega
      · exact ht q (List.mem_cons_of_mem _ hq')
    · rw [if_neg h] at hq
      rcases List.mem_cons.mp hq with hq' | hq'
      · rw [hq']
        exact ht (a, b) (by simp)
      · exact ih (fun r hr => ht r (List.mem_cons_of_mem _ hr)) q hq'

theorem agg_pos (cat : Catalog) {tree : List TreeEntry}
    (h : ∀ e ∈ tree, ∀ n, e.size = some n → 0 < n) :
    ∀ q ∈ aggregateByLanguageFromTree cat tree, 0 < q.2 := by
  rw [aggregateByLanguageFromTree]
  suffices hs : ∀ (acc : LanguageTotals), (∀ q ∈ acc, 0 < q.2) →
      ∀ q ∈ tree.foldl (aggStep cat) acc, 0 < q.2 by
    exact hs [] (by simp)
  induction tree with
  | nil => intro acc hacc; simpa using hacc
  | cons e rest ih =>
    intro acc hacc
    rw [List.foldl_cons]
    refine ih (fun e' he' => h e' (List.mem_cons_of_mem _ he')) _ ?_
    by_cases ht : e.type = "blob"
    · cases hs : e.size with
      | none =>
        have hstep : aggStep cat acc e = acc := by simp [aggStep, ht, hs]
        rw [hstep]
        exact hacc
      | some n =>
        cases hl : extToLanguage cat e.path with
        | none =>
          have hstep : aggStep cat acc e = acc := by simp [aggStep, ht, hs, hl]
          rw [hstep]
          exact hacc
        | some lang =>
          have hstep : aggStep cat acc e = updT acc lang n := by
            simp [aggStep, ht, hs, hl]
          rw [hstep]
          exact updT_pos hacc (h e (by simp) n hs)
    · have hstep : aggStep cat acc e = acc := by simp [aggStep, ht]
      rw [hstep]
      exact hacc

theorem mergeT_pos {b a : LanguageTotals}
    (ha : ∀ q ∈ a, 0 < q.2) (hb : ∀ q ∈ b, 0 < q.2) :
    ∀ q ∈ mergeT a b, 0 < q.2 := by
  induction b generalizing a with
  | nil => simpa [mergeT] using ha
  | cons hd rest ih =>
    obtain ⟨k₁, v₁⟩ := hd
    have hstep : mergeT a ((k₁, v₁) :: rest) = mergeT (updT a k₁ v₁) rest :=
      rfl
    rw [hstep]
    exact ih (updT_pos ha (hb (k₁, v₁) (by simp)))
      (fun q hq => hb q (List.mem_cons_of_mem _ hq))

theorem aggregateReposGo_pos (cat : Catalog)
    (fetchTree : String → String → String → Except UpstreamError (List TreeEntry))
    (branch : String)
    (hf : ∀ o r tree, fetchTree o r branch = Except.ok tree →
      ∀ e ∈ tree, ∀ n, e.size = some n → 0 < n) :
    ∀ (repos : List String) (grand totals : LanguageTotals),
      (∀ q ∈ grand, 0 < q.2) →
      aggregateReposGo cat fetchTree branch grand repos = Except.ok totals →
      ∀ q ∈ totals, 0 < q.2 := by
  intro repos
  induction repos with
  | nil =>
    intro grand totals hg hgo
    rw [aggregateReposGo] at hgo
    injection hgo with hgo
    exact hgo ▸ hg
  | cons full rest ih =>
    intro grand totals hg hgo
    rw [aggregateReposGo] at hgo
    cases hp : parseFullName full with
    | none =>
      simp only [hp] at hgo
      exact ih grand totals hg hgo
    | some pr =>
      obtain ⟨owner, repo⟩ := pr
      simp only [hp] at hgo
      cases hfr : fetchTree owner repo branch with
      | error e =>
        simp only [hfr] at hgo
        exact absurd hgo (by simp)
      | ok tree =>
        simp only [hfr] at hgo
        by_cases he : tree.isEmpty
        · rw [if_pos he] at hgo
          exact ih grand totals hg hgo
        · rw [if_neg he] at hgo
          exact ih _ totals
            (mergeT_pos hg (agg_pos cat (hf owner repo tree hfr))) hgo

/-- Claim C7 fails on the source: a blob of size 0 (an empty file) creates a
language key with total 0, which the ranking step happily selects — the
resulting ranked item has `sizeBytes = 0`, not `> 0`. -/
theorem c7_counterexample :
    aggregateRepos [("Go", [".go"])]
        (fun _ _ _ => Except.ok [⟨"empty.go", "blob", some 0⟩])
        ["u/A"] "develop" = Except.ok [("Go", 0)] ∧
    ¬ (∀ item ∈ rank [("Go", 0)] [] 6, 0 < item.size) := by
  constructor
  · rfl
  · intro h
    have hmem : (⟨"Go", 0, 0⟩ : RankedItem) ∈ rank [("Go", 0)] [] 6 := by
      have heq : rank [("Go", 0)] [] 6 = [⟨"Go", 0, 0⟩] := rfl
      rw [heq]
      exact List.mem_singleton.mpr rfl
    exact absurd (h _ hmem) (by decide)

/-- Claim C7, amended: provided every blob size reported by the upstream
trees is positive (no empty files), every ranked item's `sizeBytes` is
strictly positive; with a 0-byte blob the invariant fails, per the
counterexample. -/
theorem c7_amended_sizes_positive (cat : Catalog)
    (fetchTree : String → String → String → Except UpstreamError (List TreeEntry))
    (repos : List String) (branch : String) (hide : List String)
    (topN : Nat) (totals : LanguageTotals)
    (hagg : aggregateRepos cat fetchTree repos branch = Except.ok totals)
    (hpos : ∀ o r tree, fetchTree o r branch = Except.ok tree →
      ∀ e ∈ tree, ∀ n, e.size = some n → 0 < n) :
    ∀ item ∈ rank totals hide topN, 0 < item.size := by
  intro item hitem
  obtain ⟨p, hmem, _, hsz, _⟩ := rank_mem_origin hitem
  rw [hsz]
  exact aggregateReposGo_pos cat fetchTree branch hpos repos [] totals
    (by simp) hagg p hmem

/-- Instance of the amended C7: one repository, a single 5-byte Go file,
ranked item strictly positive. -/
theorem c7_amended_sizes_positive_witness :
    aggregateRepos [("Go", [".go"])]
        (fun _ _ _ => Except.ok [⟨"a.go", "blob", some 5⟩])
        ["u/A"] "develop" = Except.ok [("Go", 5)] ∧
    ∀ item ∈ rank [("Go", 5)] [] 6, 0 < item.size :=
  ⟨rfl,
    c7_amended_sizes_positive [("Go", [".go"])]
      (fun _ _ _ => Except.ok [⟨"a.go", "blob", some 5⟩]) ["u/A"] "develop"
      [] 6 [("Go", 5)] rfl
      (by
        intro o r tree ht e he n hn
        injection ht with ht
        subst ht
        simp only [List.mem_singleton] at he
        subst he
        simp only at hn
        injection hn with hn
        omega)⟩

/-! ### Top-N clamping (C8) -/

/-- Claim C8: for every totals mapping and every requested `langs_count`
(`parseInt` result, `none` for `NaN`), `rank` returns at most `topN` items
where `topN` is the requested value clamped into [1, 20]; requesting 500
clamps to exactly 20. -/
theorem c8_rank_length_clamped (totals : LanguageTotals) (hide : List String)
    (p : Option Int) :
    (rank totals hide (topNOf p)).length ≤ topNOf p ∧
    1 ≤ topNOf p ∧ topNOf p ≤ 20 ∧ topNOf (some 500) = 20 := by
  refine ⟨?_, ?_, ?_, by decide⟩
  · simp only [rank, List.length_map, List.length_take]
    exact min_le_left _ _
  · cases p with
    | none => decide
    | some n =>
      by_cases hn : n = 0
      · rw [hn]; decide
      · simp only [topNOf, clampValue, hn, if_false]
        have h := le_max_left (1 : Int) (min n 20)
        omega
  · cases p with
    | none => decide
    | some n =>
      by_cases hn : n = 0
      · rw [hn]; decide
      · simp only [topNOf, clampValue, hn, if_false]
        have h1 : min n 20 ≤ 20 := min_le_right _ _
        have h2 : max (1 : Int) (min n 20) ≤ 20 :=
          max_le (by omega) h1
        omega

end TopLangs
